import Mathlib

/-!
# Verification of the pygunshot anechoic gunshot synthesizer

Shallow embedding of the pygunshot core (`util.py`, `nwave.py`,
`muzzleblast.py`, `process.py`) over the reals, together with theorems that
settle the specification claims.

Modelling conventions:
* numpy float arithmetic is modelled over `ℝ`;
* operations that produce NaN or raise in Python (asin/arccos outside
  `[-1, 1]`, division by a zero distance, `1.0/0.0`) are modelled with
  `Option`, `none` standing for the undefined result;
* `np.linspace(0, dur, dur*Fs)` is modelled faithfully: the sample count is
  the truncation `⌊dur*Fs⌋` (numpy converts the float count with `int`), and
  for `n ≥ 2` the points are `0 + (dur - 0) * i / (n - 1)`, endpoints
  included.
-/

open Filter Topology

set_option linter.unusedVariables false

noncomputable section

/-- Vector with three real components: positions and directions in the scene. -/
structure Vec3 where
  x : ℝ
  y : ℝ
  z : ℝ

namespace Vec3

/-- Component-wise subtraction, `xmic - xgun` in numpy. -/
instance : Sub Vec3 := ⟨fun a b => ⟨a.x - b.x, a.y - b.y, a.z - b.z⟩⟩

/-- The zero vector. -/
instance : Zero Vec3 := ⟨⟨0, 0, 0⟩⟩

@[simp] theorem sub_x (a b : Vec3) : (a - b).x = a.x - b.x := rfl

@[simp] theorem sub_y (a b : Vec3) : (a - b).y = a.y - b.y := rfl

@[simp] theorem sub_z (a b : Vec3) : (a - b).z = a.z - b.z := rfl

@[simp] theorem zero_x : (0 : Vec3).x = 0 := rfl

@[simp] theorem zero_y : (0 : Vec3).y = 0 := rfl

@[simp] theorem zero_z : (0 : Vec3).z = 0 := rfl

/-- Dot product, `np.dot` on 3-vectors. -/
def dot (a b : Vec3) : ℝ := a.x * b.x + a.y * b.y + a.z * b.z

/-- Division of a vector by a scalar (numpy broadcasting `ngun / s`). -/
def divScalar (a : Vec3) (s : ℝ) : Vec3 := ⟨a.x / s, a.y / s, a.z / s⟩

/-- Euclidean norm, `np.linalg.norm` on 3-vectors. -/
def norm (a : Vec3) : ℝ := Real.sqrt (dot a a)

theorem dot_self_nonneg (a : Vec3) : 0 ≤ dot a a := by
  unfold dot
  nlinarith [mul_self_nonneg a.x, mul_self_nonneg a.y, mul_self_nonneg a.z]

theorem eq_zero_of_comps (a : Vec3) (hx : a.x = 0) (hy : a.y = 0) (hz : a.z = 0) :
    a = 0 := by
  cases a
  simp only at hx hy hz
  rw [hx, hy, hz]
  rfl

theorem ext_comps (a b : Vec3) (hx : a.x = b.x) (hy : a.y = b.y) (hz : a.z = b.z) :
    a = b := by
  cases a
  cases b
  simp only at hx hy hz
  rw [hx, hy, hz]

theorem sub_ne_zero_of_ne (a b : Vec3) (h : a ≠ b) : a - b ≠ 0 := by
  intro hc
  apply h
  refine ext_comps a b ?_ ?_ ?_
  · have := congrArg Vec3.x hc; simp only [sub_x, zero_x] at this; linarith
  · have := congrArg Vec3.y hc; simp only [sub_y, zero_y] at this; linarith
  · have := congrArg Vec3.z hc; simp only [sub_z, zero_z] at this; linarith

theorem dot_self_pos (a : Vec3) (h : a ≠ 0) : 0 < dot a a := by
  rcases lt_or_eq_of_le (dot_self_nonneg a) with hlt | heq
  · exact hlt
  · exfalso
    apply h
    unfold dot at heq
    refine eq_zero_of_comps a ?_ ?_ ?_ <;>
      nlinarith [mul_self_nonneg a.x, mul_self_nonneg a.y, mul_self_nonneg a.z]

theorem norm_pos (a : Vec3) (h : a ≠ 0) : 0 < norm a :=
  Real.sqrt_pos.mpr (dot_self_pos a h)

theorem abs_y_le_norm (a : Vec3) : |a.y| ≤ norm a := by
  rw [← Real.sqrt_sq_eq_abs]
  apply Real.sqrt_le_sqrt
  unfold dot
  nlinarith [mul_self_nonneg a.x, mul_self_nonneg a.z]

theorem sq_norm (a : Vec3) : norm a ^ 2 = dot a a :=
  Real.sq_sqrt (dot_self_nonneg a)

/-- Cauchy–Schwarz on 3-vectors, via the Lagrange identity. -/
theorem dot_sq_le (a b : Vec3) : dot a b ^ 2 ≤ dot a a * dot b b := by
  unfold dot
  nlinarith [sq_nonneg (a.x * b.y - a.y * b.x), sq_nonneg (a.x * b.z - a.z * b.x),
    sq_nonneg (a.y * b.z - a.z * b.y)]

end Vec3

/-! ## Sampling grid (`np.linspace(0, duration, duration*Fs)`) -/

/-- Number of samples: numpy converts the float `duration*Fs` to an `int`
count by truncation (for the nonnegative products used here, the floor). -/
def numSamples (duration Fs : ℝ) : ℕ := (⌊duration * Fs⌋).toNat

/-- Model of `np.linspace a b n` with the default inclusive endpoint: `n` points
`a + (b - a) * i / (n - 1)`; one point `[a]` when `n = 1`, empty when
`n = 0`. -/
def linspace (a b : ℝ) (n : ℕ) : List ℝ :=
  if n ≤ 1 then List.replicate n a
  else (List.range n).map fun i : ℕ => a + (b - a) * (i : ℝ) / ((n : ℝ) - 1)

@[simp] theorem linspace_length (a b : ℝ) (n : ℕ) : (linspace a b n).length = n := by
  unfold linspace
  split
  · simp
  · rw [List.length_map, List.length_range]

theorem linspace_getElem? (a b : ℝ) (n i : ℕ) (hn : 2 ≤ n) (hi : i < n) :
    (linspace a b n)[i]? = some (a + (b - a) * (i : ℝ) / ((n : ℝ) - 1)) := by
  unfold linspace
  rw [if_neg (by omega)]
  simp [List.getElem?_map, List.getElem?_range, hi]

/-! ## `util.py` -/

/-- Pressure conversion `convertPressureToPascals`: kg/cm² to Pa. -/
def convertPressureToPascals (mpressure : ℝ) : ℝ := 98066.5 * mpressure

/-- Geometry derivation `computeGeometry(xmic, xgun)`: distance `r = ‖xmic - xgun‖` and angle
`θ = arccos(dot(xmic - xgun, (0,1,0)) / r)`.  When `r = 0` (or the arccos
argument falls outside `[-1,1]`, which cannot happen for `r ≠ 0`) numpy
produces NaN for the angle; that is modelled as `none`. -/
def computeGeometry (xmic xgun : Vec3) : ℝ × Option ℝ :=
  let r := Vec3.norm (xmic - xgun)
  let c := Vec3.dot (xmic - xgun) ⟨0, 1, 0⟩ / r
  (r, if r = 0 ∨ 1 < |c| then none else some (Real.arccos c))

/-! ## `nwave.py` -/

/-- Mach number `MachNumber(v) = v / 341.0`. -/
def MachNumber (v : ℝ) : ℝ := v / 341.0

/-- Cone angle `coneAngle(M) = np.arcsin(1.0/M)`.  Python raises on `M = 0` and numpy
returns NaN when `|1/M| > 1`; both are modelled as `none`. -/
def coneAngle (M : ℝ) : Option ℝ :=
  if M = 0 ∨ 1 < |1.0 / M| then none else some (Real.arcsin (1.0 / M))

/-- Trajectory geometry `missDistance(xgun, ngun, xmic)`: perpendicular miss distance and the
along-trajectory distance, from `dlin = dot(mvec, ngun/‖ngun‖)` and
`dmis = sqrt(dvec² - dlin²)`. -/
def missDistance (xgun ngun xmic : Vec3) : ℝ × ℝ :=
  let mvec := xmic - xgun
  let dvec := Real.sqrt (Vec3.dot mvec mvec)
  let nunit := Vec3.divScalar ngun (Real.sqrt (Vec3.dot ngun ngun))
  let dlin := Vec3.dot mvec nunit
  let dmis := Real.sqrt (dvec ^ 2 - dlin ^ 2)
  (dmis, dlin)

/-- Overpressure `nWaveOverPressure(v, d, l, x) = 0.53·d·(M²-1)^0.125/(x^0.75·l^0.25)·P0`. -/
def nWaveOverPressure (v d l x : ℝ) : ℝ :=
  0.53 * d * (MachNumber v ^ 2 - 1) ^ (0.125 : ℝ) /
    (x ^ (0.75 : ℝ) * l ^ (0.25 : ℝ)) * 101.0e3

/-- Duration `nWaveDuration(v, d, l, x)`: `L = 1.82·d·M·x^0.25/((M²-1)^0.375·l^0.25)`,
`Td = L/cs`. -/
def nWaveDuration (v d l x : ℝ) : ℝ :=
  1.82 * d * (MachNumber v * x ^ (0.25 : ℝ)) /
    ((MachNumber v ^ 2 - 1) ^ (0.375 : ℝ) * l ^ (0.25 : ℝ)) / 341.0

/-- Arrival time `nWaveTimeOfArrival(v, xgun, ngun, xmic) = cos(θ)·dmis/cs + dlin/v`,
`θ = coneAngle(MachNumber v)`; `none` when the cone angle is undefined. -/
def nWaveTimeOfArrival (v : ℝ) (xgun ngun xmic : Vec3) : Option ℝ :=
  match coneAngle (MachNumber v) with
  | none => none
  | some th =>
      some (Real.cos th * (missDistance xgun ngun xmic).1 / 341.0 +
        (missDistance xgun ngun xmic).2 / v)

/-- Rise time `nWaveRiseTime(pmax) = λ/cs · P0/pmax`. -/
def nWaveRiseTime (pmax : ℝ) : ℝ := 68.0e-9 / 341.0 * 101.0e3 / pmax

/-- The branch structure of `nWave` on the derived parameters
`(ta, Td, tr, pmax)`: exactly the `if`/`elif` chain of the source. -/
def nWaveBranches (ta Td tr pmax t : ℝ) : ℝ :=
  if t < ta then 0
  else if t ≤ ta + tr ∧ ta < t then (t - ta) / tr * pmax
  else if t ≤ ta + Td - tr ∧ ta + tr < t then
    (1 - 2 * (t - ta - tr) / (Td - 2 * tr)) * pmax
  else if t ≤ ta + Td ∧ ta + Td - tr < t then
    (-1.0 + (t - ta - Td + tr) / tr) * pmax
  else 0

/-- Sample function `nWave(xgun, ngun, xmic, v, d, l, x, t)`: derives `(pmax, ta, Td, tr)`
and evaluates the branch chain; `none` when the time of arrival is NaN. -/
def nWave (xgun ngun xmic : Vec3) (v d l x t : ℝ) : Option ℝ :=
  match nWaveTimeOfArrival v xgun ngun xmic with
  | none => none
  | some ta =>
      some (nWaveBranches ta (nWaveDuration v d l x)
        (nWaveRiseTime (nWaveOverPressure v d l x)) (nWaveOverPressure v d l x) t)

/-- Signal generator `calculateNWave(...)`: samples `nWave` on `linspace(0, dur, dur*Fs)`.
The undefinedness of `nWave` does not depend on the sample time, so it is
hoisted out of the per-sample loop. -/
def calculateNWave (xgun ngun xmic : Vec3) (v d l x dur Fs : ℝ) : Option (List ℝ) :=
  match nWaveTimeOfArrival v xgun ngun xmic with
  | none => none
  | some ta =>
      some ((linspace 0 dur (numSamples dur Fs)).map fun ti =>
        nWaveBranches ta (nWaveDuration v d l x)
          (nWaveRiseTime (nWaveOverPressure v d l x)) (nWaveOverPressure v d l x) ti)

/-- The four-segment N-wave of the specification, transcribed from the
spec's own segment list (the comparison target for the branch structure of
the source's `nWave`). -/
def nWaveSpecWaveform (ta Td tr pmax t : ℝ) : ℝ :=
  if t < ta then 0
  else if t ≤ ta + tr then (t - ta) / tr * pmax
  else if t ≤ ta + Td - tr then (1 - 2 * (t - ta - tr) / (Td - 2 * tr)) * pmax
  else if t ≤ ta + Td then (-1.0 + (t - ta - Td + tr) / tr) * pmax
  else 0

/-! ## `muzzleblast.py` -/

/-- Friedlander wave `friedlander(t, ta, tau, Pp)`: 0 before arrival, otherwise the scaled
Friedlander decay `Pp·(1-(t-ta)/tau)·exp(-(t-ta)/tau)·pinf·ainf`. -/
def friedlander (t ta tau Pp : ℝ) : ℝ :=
  if t < ta then 0
  else Pp * (1 - (t - ta) / tau) * Real.exp (-(t - ta) / tau) * 101.0e3 * 341.0

/-- Sampling loop `muzzleblast(tarr, ta, tau, Pp)`: the per-sample loop filling the output
with `friedlander` values. -/
def muzzleblast (tarr : List ℝ) (ta tau Pp : ℝ) : List ℝ :=
  tarr.map fun t => friedlander t ta tau Pp

/-- Scaling lengths `scalinglength(gammae, pe, ue, Ae, mu, theta)`: scaling length `l` and
direction-weighted scaling length `lp`. -/
def scalinglength (gammae pe ue Ae mu theta : ℝ) : ℝ × ℝ :=
  let peb := pe / 101.0e3
  let Me := MachNumber ue
  let dEdt := gammae * peb * ue / (gammae - 1) * (1 + (gammae - 1) / 2 * Me ^ 2) * Ae
  let l := Real.sqrt (dEdt / (101.0e3 * 341.0))
  let dirWeight := mu * Real.cos theta + Real.sqrt (1 - mu ^ 2 * Real.sin theta ^ 2)
  (l, l * dirWeight * 10)

/-- Momentum index `momentumindex(M, pe, gamma)`: `0.87 - 0.01·M·sqrt(gamma·pe'/2)` with
`pe' = 98066.5·pe/101e3`. -/
def momentumindex (M pe : ℝ) (gamma : ℝ := 1.24) : ℝ :=
  let pe1 := convertPressureToPascals pe
  let pe2 := pe1 / 101e3
  let xmod := M * Real.sqrt (gamma * pe2 / 2)
  0.87 - 0.01 * xmod

/-- Peak overpressure `peakOverpressure(r, lp)` with the `rb < 50` near-field/far-field regime
switch; the result is divided by 100. -/
def peakOverpressure (r lp : ℝ) : ℝ :=
  let rb := r / lp
  (if rb < 50 then 0.89 * (lp / r) + 1.61 * (lp / r) ^ 2
   else 3.48975 / (rb * Real.sqrt (Real.log (33119.0 * rb)))) / 100

/-- Arrival time `timeOfArrival(r, lp)` of the muzzle blast. -/
def timeOfArrival (r lp : ℝ) : ℝ :=
  let rb := r / lp
  let X := Real.sqrt (rb ^ 2 + 1.04 * rb + 1.88)
  lp * (X - 0.52 * Real.log (2 * X + 2 * rb + 1.04) - 0.56) / 341.0

/-- Positive phase duration `positivePhaseDuration(r, lp, l, L, Vp)` with the same `rb < 50` regime
switch as `peakOverpressure`. -/
def positivePhaseDuration (r lp l L Vp : ℝ) : ℝ :=
  let rb := r / lp
  let X := Real.sqrt (rb ^ 2 + 1.04 * rb + 1.88)
  let delta := L * 341.0 / (Vp * l)
  let G := 0.09 - 0.00379 * delta + 1.07 * (1 - 1.36 * Real.exp (-0.049 * rb)) * l / lp
  (if rb < 50 then rb - X + 0.52 * Real.log (2 * X + 2 * rb + 1.04) + 0.56 + G
   else 2.99 * Real.sqrt (Real.log (33119.0 * rb)) - 8.534 + G) * lp / 341.0

/-- Signal generator `calculatemuzzleblast(...)`: converts the pressure, builds the time base
`linspace(0, duration, duration*Fs)`, derives `(l, lp, ta, tau, Pb)` and
returns `(Pmb, t)`. -/
def calculatemuzzleblast (gammae pe ue Ae mu theta r d Lm Vp duration Fs : ℝ) :
    List ℝ × List ℝ :=
  let pePa := convertPressureToPascals pe
  let L := Lm
  let t := linspace 0 duration (numSamples duration Fs)
  let lpair := scalinglength gammae pePa ue Ae mu theta
  let ta := timeOfArrival r lpair.2
  let tau := positivePhaseDuration r lpair.2 lpair.1 L Vp
  let Pb := peakOverpressure r lpair.2
  (muzzleblast t ta tau Pb, t)

/-! ## `process.py` -/

/-- Composer `_getAnechoicGunshot(...)`.  Returns
`(sig, Pmb, Pnw)`; `none` models the NaN geometry of a degenerate scene.
A NaN cone angle (`coneAngle uexit = none`) makes the sonic-boom test
false in numpy, hence falls to the zero N-wave branch. -/
def getAnechoicGunshot (xmic xgun ngun : Vec3)
    (bulletDiam bulletLen barrelLength pexit uexit duration Fs : ℝ) :
    Option (List ℝ × List ℝ × List ℝ) :=
  let gammae : ℝ := 1.24
  match computeGeometry xmic xgun with
  | (_, none) => none
  | (r, some theta) =>
      let Ae := (bulletDiam / 2) ^ 2 * Real.pi
      let M := MachNumber uexit
      let mu := momentumindex M pexit gammae
      let Vp := uexit
      let Lm := barrelLength
      let d := bulletDiam
      let l := bulletLen
      let xmiss := r * Real.sin theta
      let Pmb := (calculatemuzzleblast gammae pexit uexit Ae mu theta r d Lm Vp duration Fs).1
      match coneAngle uexit with
      | none => some (Pmb, Pmb, List.replicate Pmb.length 0)
      | some thM =>
          if 341.0 < uexit ∧ theta < Real.pi - thM then
            match calculateNWave xgun ngun xmic uexit d l xmiss duration Fs with
            | none => none
            | some Pnw => some (List.zipWith (· + ·) Pmb Pnw, Pmb, Pnw)
          else some (Pmb, Pmb, List.replicate Pmb.length 0)

/-! ## Claim theorems -/

/-- Claim C4: For all parameters with `pmax > 0`, `tr > 0` and `Td > 2*tr`, the
N-wave sample branch chain computes exactly the spec's four-segment
piecewise waveform with its `≤`/`>` boundary ties (the chain tests
`ta < t` in the ramp branch, but at `t = ta` its final `else` returns `0`,
which is precisely the ramp value there). -/
theorem nWave_matches_spec_piecewise (ta Td tr pmax : ℝ) (hp : 0 < pmax)
    (htr : 0 < tr) (hTd : 2 * tr < Td) (t : ℝ) :
    nWaveBranches ta Td tr pmax t = nWaveSpecWaveform ta Td tr pmax t := by
  rcases lt_trichotomy t ta with h1 | h1 | h1
  · -- before arrival: both sides 0
    unfold nWaveBranches nWaveSpecWaveform
    rw [if_pos h1, if_pos h1]
  · -- at the arrival instant: the chain's final else returns 0,
    -- the spec's ramp also evaluates to 0 there
    subst h1
    have hL : nWaveBranches t Td tr pmax t = 0 := by
      unfold nWaveBranches
      rw [if_neg (lt_irrefl t),
        if_neg (show ¬(t ≤ t + tr ∧ t < t) from fun h => lt_irrefl t h.2),
        if_neg (show ¬(t ≤ t + Td - tr ∧ t + tr < t) from fun h => by linarith [h.2]),
        if_neg (show ¬(t ≤ t + Td ∧ t + Td - tr < t) from fun h => by linarith [h.2])]
    have hR : nWaveSpecWaveform t Td tr pmax t = 0 := by
      unfold nWaveSpecWaveform
      rw [if_neg (lt_irrefl t), if_pos (show t ≤ t + tr by linarith)]
      rw [sub_self, zero_div, zero_mul]
    rw [hL, hR]
  · rcases le_or_lt t (ta + tr) with h2 | h2
    · -- rise segment
      unfold nWaveBranches nWaveSpecWaveform
      rw [if_neg (show ¬t < ta by linarith), if_pos ⟨h2, h1⟩,
        if_neg (show ¬t < ta by linarith), if_pos h2]
    · rcases le_or_lt t (ta + Td - tr) with h3 | h3
      · -- linear decay segment
        unfold nWaveBranches nWaveSpecWaveform
        rw [if_neg (show ¬t < ta by linarith),
          if_neg (show ¬(t ≤ ta + tr ∧ ta < t) from fun h => by linarith [h.1]),
          if_pos ⟨h3, h2⟩,
          if_neg (show ¬t < ta by linarith), if_neg (not_le.mpr h2), if_pos h3]
      · rcases le_or_lt t (ta + Td) with h4 | h4
        · -- recovery segment
          unfold nWaveBranches nWaveSpecWaveform
          rw [if_neg (show ¬t < ta by linarith),
            if_neg (show ¬(t ≤ ta + tr ∧ ta < t) from fun h => by linarith [h.1]),
            if_neg (show ¬(t ≤ ta + Td - tr ∧ ta + tr < t) from fun h => by linarith [h.1]),
            if_pos ⟨h4, h3⟩,
            if_neg (show ¬t < ta by linarith), if_neg (not_le.mpr h2),
            if_neg (not_le.mpr h3), if_pos h4]
        · -- after the wave: both sides 0
          unfold nWaveBranches nWaveSpecWaveform
          rw [if_neg (show ¬t < ta by linarith),
            if_neg (show ¬(t ≤ ta + tr ∧ ta < t) from fun h => by linarith [h.1]),
            if_neg (show ¬(t ≤ ta + Td - tr ∧ ta + tr < t) from fun h => by linarith [h.1]),
            if_neg (show ¬(t ≤ ta + Td ∧ ta + Td - tr < t) from fun h => by linarith [h.1]),
            if_neg (show ¬t < ta by linarith), if_neg (not_le.mpr h2),
            if_neg (not_le.mpr h3), if_neg (not_le.mpr h4)]

/-- Witness for C4: the equality at `ta = 0`, `Td = 3`, `tr = 1`, `pmax = 1`,
`t = 2`. -/
theorem nWave_matches_spec_piecewise_witness :
    nWaveBranches 0 3 1 1 2 = nWaveSpecWaveform 0 3 1 1 2 :=
  nWave_matches_spec_piecewise 0 3 1 1 (by norm_num) (by norm_num) (by norm_num) 2

/-- Claim C5: for `tau > 0`, `friedlander` returns exactly `0` before the arrival
time and `Pp·(1-(t-ta)/tau)·exp(-(t-ta)/tau)·pinf·ainf` (with
`pinf = 101.0e3`, `ainf = 341.0`) from the arrival time on. -/
theorem friedlander_cases (t ta tau Pp : ℝ) (htau : 0 < tau) :
    (t < ta → friedlander t ta tau Pp = 0) ∧
    (ta ≤ t → friedlander t ta tau Pp =
      Pp * (1 - (t - ta) / tau) * Real.exp (-(t - ta) / tau) * 101.0e3 * 341.0) := by
  constructor
  · intro h
    unfold friedlander
    rw [if_pos h]
  · intro h
    unfold friedlander
    rw [if_neg (not_lt.mpr h)]

/-- Witness for C5: at `t = 0 < ta = 1`, `tau = 1`, `Pp = 1` the function
returns `0`; at `t = 2 ≥ ta = 1` it returns the Friedlander formula. -/
theorem friedlander_cases_witness :
    friedlander 0 1 1 1 = 0 ∧
    friedlander 2 1 1 1 = 1 * (1 - (2 - 1) / 1) * Real.exp (-(2 - 1) / 1) * 101.0e3 * 341.0 :=
  ⟨(friedlander_cases 0 1 1 1 (by norm_num)).1 (by norm_num),
   (friedlander_cases 2 1 1 1 (by norm_num)).2 (by norm_num)⟩

/-- Helper: `coneAngle` at Mach numbers `≥ 1` is defined and equals
`arcsin (1/M)`. -/
theorem coneAngle_of_one_le (M : ℝ) (h : 1 ≤ M) :
    coneAngle M = some (Real.arcsin (1.0 / M)) := by
  unfold coneAngle
  rw [if_neg]
  push_neg
  have hM : 0 < M := lt_of_lt_of_le one_pos h
  constructor
  · exact ne_of_gt hM
  · rw [abs_of_nonneg (by positivity)]
    rw [div_le_one hM]
    linarith

/-- Counterexample for C6: at `M = 1` (subsonic boundary, `M ≤ 1`), `coneAngle`
does not fail: it returns the value `arcsin 1 = π/2`. -/
theorem coneAngle_one_returns :
    coneAngle 1 = some (Real.pi / 2) := by
  rw [coneAngle_of_one_le 1 le_rfl]
  norm_num [Real.arcsin_one]

/-- Claim C6 amended: `coneAngle M` returns `arcsin (1/M)` for every `M ≥ 1`
(in particular the genuine value `π/2` at `M = 1`); for `0 < M < 1` the
asin argument exceeds 1 and the result is NaN (`none`).  No
`SubsonicError` exists in the code. -/
theorem coneAngle_domain (M : ℝ) :
    (1 ≤ M → coneAngle M = some (Real.arcsin (1.0 / M))) ∧
    (0 < M → M < 1 → coneAngle M = none) := by
  constructor
  · exact coneAngle_of_one_le M
  · intro h0 h1
    unfold coneAngle
    rw [if_pos]
    right
    rw [abs_of_nonneg (by positivity)]
    rw [lt_div_iff₀ h0]
    linarith

/-- Witness for C6: `coneAngle` is NaN (`none`) at `M = 1/2` and returns
`arcsin (1/2)` at `M = 2`. -/
theorem coneAngle_domain_witness :
    coneAngle (1 / 2) = none ∧ coneAngle 2 = some (Real.arcsin (1.0 / 2)) :=
  ⟨(coneAngle_domain (1 / 2)).2 (by norm_num) (by norm_num),
   (coneAngle_domain 2).1 (by norm_num)⟩

/-- Claim C10: with `pe > 0` and `gamma > 0`, `momentumindex` equals the closed
form `0.87 - 0.01·M·sqrt(gamma·(98066.5·pe/101e3)/2)`, is strictly
decreasing in the Mach number, and is `< 0.87` for every `M > 0`. -/
theorem momentumindex_strictAnti (pe gamma : ℝ) (hpe : 0 < pe) (hg : 0 < gamma) :
    (∀ M, momentumindex M pe gamma =
      0.87 - 0.01 * M * Real.sqrt (gamma * (98066.5 * pe / 101e3) / 2)) ∧
    StrictAnti (fun M => momentumindex M pe gamma) ∧
    (∀ M, 0 < M → momentumindex M pe gamma < 0.87) := by
  have hs : 0 < Real.sqrt (gamma * (98066.5 * pe / 101e3) / 2) := by
    apply Real.sqrt_pos.mpr
    positivity
  have hform : ∀ M, momentumindex M pe gamma =
      0.87 - 0.01 * M * Real.sqrt (gamma * (98066.5 * pe / 101e3) / 2) := by
    intro M
    unfold momentumindex convertPressureToPascals
    ring_nf
  refine ⟨hform, ?_, ?_⟩
  · intro M1 M2 h12
    show momentumindex M2 pe gamma < momentumindex M1 pe gamma
    rw [hform M1, hform M2]
    nlinarith [mul_pos (sub_pos.mpr h12) hs]
  · intro M hM
    rw [hform M]
    nlinarith [mul_pos hM hs]

/-- Witness for C10: at `pe = 1`, `gamma = 1.24`, the index at `M = 1` is below
`0.87` and the index decreases from `M = 1` to `M = 2`. -/
theorem momentumindex_strictAnti_witness :
    momentumindex 1 1 1.24 < 0.87 ∧ momentumindex 2 1 1.24 < momentumindex 1 1 1.24 :=
  ⟨(momentumindex_strictAnti 1 1.24 (by norm_num) (by norm_num)).2.2 1 (by norm_num),
   (momentumindex_strictAnti 1 1.24 (by norm_num) (by norm_num)).2.1 (by norm_num : (1:ℝ) < 2)⟩

theorem missDistance_eq (xgun ngun xmic : Vec3) :
    missDistance xgun ngun xmic =
      (Real.sqrt (Real.sqrt (Vec3.dot (xmic - xgun) (xmic - xgun)) ^ 2 -
        Vec3.dot (xmic - xgun)
          (Vec3.divScalar ngun (Real.sqrt (Vec3.dot ngun ngun))) ^ 2),
       Vec3.dot (xmic - xgun)
         (Vec3.divScalar ngun (Real.sqrt (Vec3.dot ngun ngun)))) := rfl

theorem dot_divScalar (a b : Vec3) (s : ℝ) :
    Vec3.dot a (Vec3.divScalar b s) = Vec3.dot a b / s := by
  unfold Vec3.dot Vec3.divScalar
  simp only
  ring

/-- Claim C9: for a non-zero barrel direction and distinct gun/microphone
positions, the pair `(dmis, dlin)` returned by `missDistance` satisfies the
Pythagorean identity `dmis² + dlin² = ‖xmic - xgun‖²`. -/
theorem missDistance_pythagoras (xgun ngun xmic : Vec3) (hn : ngun ≠ 0)
    (hm : xmic ≠ xgun) :
    (missDistance xgun ngun xmic).1 ^ 2 + (missDistance xgun ngun xmic).2 ^ 2 =
      Vec3.norm (xmic - xgun) ^ 2 := by
  rw [missDistance_eq]
  simp only
  rw [dot_divScalar]
  set mvec := xmic - xgun with hmv
  have hDnn : 0 ≤ Vec3.dot mvec mvec := Vec3.dot_self_nonneg mvec
  have hNpos : 0 < Vec3.dot ngun ngun := Vec3.dot_self_pos ngun hn
  have hs2 : Real.sqrt (Vec3.dot ngun ngun) ^ 2 = Vec3.dot ngun ngun :=
    Real.sq_sqrt (le_of_lt hNpos)
  have hdvec2 : Real.sqrt (Vec3.dot mvec mvec) ^ 2 = Vec3.dot mvec mvec :=
    Real.sq_sqrt hDnn
  have hCS : Vec3.dot mvec ngun ^ 2 ≤ Vec3.dot mvec mvec * Vec3.dot ngun ngun :=
    Vec3.dot_sq_le mvec ngun
  have hlin2 : (Vec3.dot mvec ngun / Real.sqrt (Vec3.dot ngun ngun)) ^ 2 =
      Vec3.dot mvec ngun ^ 2 / Vec3.dot ngun ngun := by
    rw [div_pow, hs2]
  have hle : (Vec3.dot mvec ngun / Real.sqrt (Vec3.dot ngun ngun)) ^ 2 ≤
      Vec3.dot mvec mvec := by
    rw [hlin2]
    rw [div_le_iff₀ hNpos]
    linarith
  have hrad : 0 ≤ Real.sqrt (Vec3.dot mvec mvec) ^ 2 -
      (Vec3.dot mvec ngun / Real.sqrt (Vec3.dot ngun ngun)) ^ 2 := by
    rw [hdvec2]; linarith
  rw [Real.sq_sqrt hrad, Vec3.sq_norm, hdvec2]
  ring

/-- Witness for C9: gun at the origin, barrel along `(0,0,1)`, microphone at
`(3,4,0)`. -/
theorem missDistance_pythagoras_witness :
    (missDistance 0 ⟨0, 0, 1⟩ ⟨3, 4, 0⟩).1 ^ 2 + (missDistance 0 ⟨0, 0, 1⟩ ⟨3, 4, 0⟩).2 ^ 2 =
      Vec3.norm ((⟨3, 4, 0⟩ : Vec3) - 0) ^ 2 :=
  missDistance_pythagoras 0 ⟨0, 0, 1⟩ ⟨3, 4, 0⟩
    (fun h => by have := congrArg Vec3.z h; simp only [Vec3.zero_z] at this; norm_num at this)
    (fun h => by have := congrArg Vec3.x h; simp only [Vec3.zero_x] at this; norm_num at this)

/-- Counterexample for C7: for coincident microphone and gun positions the code
does not fail with `DegenerateGeometryError`; it returns distance `0`
together with a NaN (undefined) angle. -/
theorem computeGeometry_degenerate_returns :
    computeGeometry 0 0 = (0, none) := by
  unfold computeGeometry
  have h0 : (0 : Vec3) - 0 = 0 := by
    refine Vec3.ext_comps _ _ ?_ ?_ ?_ <;> simp
  rw [h0]
  have hd : Vec3.dot 0 0 = 0 := by unfold Vec3.dot; simp
  have hn : Vec3.norm (0 : Vec3) = 0 := by unfold Vec3.norm; rw [hd, Real.sqrt_zero]
  simp [hn]

/-- Claim C7 amended: `computeGeometry` returns normally in every case.  For
coincident positions it yields distance `0` and an undefined (NaN) angle
instead of raising; for distinct positions it yields the Euclidean distance
and the angle `arccos(dot(xmic-xgun, (0,1,0)) / distance)`, which lies in
`[0, π]`. -/
theorem computeGeometry_defined (xmic xgun : Vec3) (h : xmic ≠ xgun) :
    (computeGeometry xmic xgun).1 = Vec3.norm (xmic - xgun) ∧
    (computeGeometry xmic xgun).2 = some (Real.arccos
      (Vec3.dot (xmic - xgun) ⟨0, 1, 0⟩ / Vec3.norm (xmic - xgun))) ∧
    0 ≤ Real.arccos
      (Vec3.dot (xmic - xgun) ⟨0, 1, 0⟩ / Vec3.norm (xmic - xgun)) ∧
    Real.arccos
      (Vec3.dot (xmic - xgun) ⟨0, 1, 0⟩ / Vec3.norm (xmic - xgun)) ≤ Real.pi := by
  have hsub : xmic - xgun ≠ 0 := Vec3.sub_ne_zero_of_ne xmic xgun h
  have hr : 0 < Vec3.norm (xmic - xgun) := Vec3.norm_pos _ hsub
  have hdot : Vec3.dot (xmic - xgun) ⟨0, 1, 0⟩ = (xmic - xgun).y := by
    unfold Vec3.dot; simp only; ring
  have habs : |Vec3.dot (xmic - xgun) ⟨0, 1, 0⟩ / Vec3.norm (xmic - xgun)| ≤ 1 := by
    rw [abs_div, abs_of_pos hr, div_le_one hr, hdot]
    exact Vec3.abs_y_le_norm _
  refine ⟨?_, ?_, Real.arccos_nonneg _, Real.arccos_le_pi _⟩
  · rfl
  · unfold computeGeometry
    simp only
    rw [if_neg]
    push_neg
    exact ⟨ne_of_gt hr, habs⟩

/-- Witness for C7: gun at the origin, microphone at `(0,1,0)`. -/
theorem computeGeometry_defined_witness :
    (computeGeometry ⟨0, 1, 0⟩ 0).1 = Vec3.norm ((⟨0, 1, 0⟩ : Vec3) - 0) ∧
    (computeGeometry ⟨0, 1, 0⟩ 0).2 = some (Real.arccos
      (Vec3.dot ((⟨0, 1, 0⟩ : Vec3) - 0) ⟨0, 1, 0⟩ / Vec3.norm ((⟨0, 1, 0⟩ : Vec3) - 0))) ∧
    0 ≤ Real.arccos
      (Vec3.dot ((⟨0, 1, 0⟩ : Vec3) - 0) ⟨0, 1, 0⟩ / Vec3.norm ((⟨0, 1, 0⟩ : Vec3) - 0)) ∧
    Real.arccos
      (Vec3.dot ((⟨0, 1, 0⟩ : Vec3) - 0) ⟨0, 1, 0⟩ / Vec3.norm ((⟨0, 1, 0⟩ : Vec3) - 0)) ≤
      Real.pi :=
  computeGeometry_defined ⟨0, 1, 0⟩ 0
    (fun h => by have := congrArg Vec3.y h; simp only [Vec3.zero_y] at this; norm_num at this)

/-- Helper: `friedlander` tends to `0` as `t` approaches the arrival time from
below (it is identically `0` there). -/
theorem friedlander_left_tendsto (ta tau Pp : ℝ) :
    Tendsto (fun t => friedlander t ta tau Pp) (𝓝[<] ta) (𝓝 0) := by
  refine Tendsto.congr' ?_ tendsto_const_nhds
  filter_upwards [self_mem_nhdsWithin] with t ht
  unfold friedlander
  rw [if_pos (Set.mem_Iio.mp ht)]

/-- Helper: the value of `friedlander` at the arrival time itself. -/
theorem friedlander_at_ta (ta tau Pp : ℝ) :
    friedlander ta ta tau Pp = Pp * 101.0e3 * 341.0 := by
  unfold friedlander
  rw [if_neg (lt_irrefl ta), sub_self, zero_div, neg_zero, zero_div, Real.exp_zero]
  ring

/-- Helper: `friedlander` is right-continuous at the arrival time. -/
theorem friedlander_right_tendsto (ta tau Pp : ℝ) :
    Tendsto (fun t => friedlander t ta tau Pp) (𝓝[≥] ta) (𝓝 (Pp * 101.0e3 * 341.0)) := by
  rw [← friedlander_at_ta ta tau Pp]
  have hg : Continuous fun t : ℝ =>
      Pp * (1 - (t - ta) / tau) * Real.exp (-(t - ta) / tau) * 101.0e3 * 341.0 := by
    continuity
  refine ContinuousWithinAt.tendsto ?_
  apply (hg.continuousWithinAt).congr
  · intro s hs
    unfold friedlander
    rw [if_neg (not_lt.mpr hs)]
  · unfold friedlander
    rw [if_neg (lt_irrefl ta)]

/-- Helper: `friedlander` is discontinuous at the arrival time whenever `Pp ≠ 0`:
the left limit is `0` but the value is `Pp·pinf·ainf ≠ 0`. -/
theorem friedlander_jump (ta tau Pp : ℝ) (hPp : Pp ≠ 0) :
    ¬ ContinuousAt (fun t => friedlander t ta tau Pp) ta := by
  intro hc
  have h1 : Tendsto (fun t => friedlander t ta tau Pp) (𝓝[<] ta)
      (𝓝 (friedlander ta ta tau Pp)) := hc.continuousWithinAt
  have h2 := friedlander_left_tendsto ta tau Pp
  have h3 : friedlander ta ta tau Pp = 0 := tendsto_nhds_unique h1 h2
  rw [friedlander_at_ta] at h3
  apply hPp
  nlinarith [h3]

/-- Counterexample for C8: `friedlander` is not continuous at `t = ta` for the
concrete parameters `ta = 0`, `tau = 1`, `Pp = 1`. -/
theorem friedlander_discontinuous_at_arrival :
    ¬ ContinuousAt (fun t => friedlander t 0 1 1) 0 := by
  intro hc
  have h1 : Tendsto (fun t => friedlander t 0 1 1) (𝓝[<] 0)
      (𝓝 (friedlander 0 0 1 1)) := hc.continuousWithinAt
  have h3 : friedlander 0 0 1 1 = 0 :=
    tendsto_nhds_unique h1 (friedlander_left_tendsto 0 1 1)
  rw [friedlander_at_ta] at h3
  norm_num at h3

/-- Claim C8 amended: `friedlander` tends to `0` from the left of `t = ta`, takes
the value `Pp·pinf·ainf` at `t = ta` (and is right-continuous there), but is
NOT continuous at `t = ta` whenever `Pp ≠ 0` — the waveform has a jump of
height `Pp·pinf·ainf` at the arrival time. -/
theorem friedlander_arrival_behaviour (ta tau Pp : ℝ) (hPp : Pp ≠ 0) :
    Tendsto (fun t => friedlander t ta tau Pp) (𝓝[<] ta) (𝓝 0) ∧
    friedlander ta ta tau Pp = Pp * 101.0e3 * 341.0 ∧
    Tendsto (fun t => friedlander t ta tau Pp) (𝓝[≥] ta) (𝓝 (Pp * 101.0e3 * 341.0)) ∧
    ¬ ContinuousAt (fun t => friedlander t ta tau Pp) ta :=
  ⟨friedlander_left_tendsto ta tau Pp, friedlander_at_ta ta tau Pp,
   friedlander_right_tendsto ta tau Pp, friedlander_jump ta tau Pp hPp⟩

/-- Witness for C8: the arrival-time behaviour at `ta = 1`, `tau = 1`,
`Pp = 2`. -/
theorem friedlander_arrival_behaviour_witness :
    Tendsto (fun t => friedlander t 1 1 2) (𝓝[<] 1) (𝓝 0) ∧
    friedlander 1 1 1 2 = 2 * 101.0e3 * 341.0 ∧
    Tendsto (fun t => friedlander t 1 1 2) (𝓝[≥] 1) (𝓝 (2 * 101.0e3 * 341.0)) ∧
    ¬ ContinuousAt (fun t => friedlander t 1 1 2) 1 :=
  friedlander_arrival_behaviour 1 1 2 (by norm_num)

/-- The muzzle-blast signal has one sample per grid point. -/
theorem calculatemuzzleblast_length (gammae pe ue Ae mu theta r d Lm Vp duration Fs : ℝ) :
    (calculatemuzzleblast gammae pe ue Ae mu theta r d Lm Vp duration Fs).1.length =
      numSamples duration Fs := by
  simp [calculatemuzzleblast, muzzleblast]

/-- A defined N-wave signal has one sample per grid point. -/
theorem calculateNWave_length (xgun ngun xmic : Vec3) (v d l x dur Fs : ℝ)
    (Pnw : List ℝ) (h : calculateNWave xgun ngun xmic v d l x dur Fs = some Pnw) :
    Pnw.length = numSamples dur Fs := by
  unfold calculateNWave at h
  cases hta : nWaveTimeOfArrival v xgun ngun xmic with
  | none => rw [hta] at h; exact absurd h (by simp)
  | some ta0 =>
      rw [hta] at h
      simp only [Option.some.injEq] at h
      rw [← h]
      simp

/-- Counterexample for C3: at `duration = 1`, `Fs = 27/10` the muzzle-blast
generator produces `⌊27/10⌋ = 2` samples while `round(duration·Fs) = 3`
(`np.linspace` truncates the float sample count rather than rounding). -/
theorem generator_length_not_round :
    (calculatemuzzleblast 1.24 1 1 1 1 0 1 1 1 1 1 (27/10)).1.length = 2 ∧
    round ((1 : ℝ) * (27/10)) = 3 := by
  constructor
  · rw [calculatemuzzleblast_length]
    unfold numSamples
    norm_num
    rfl
  · rw [round_eq]
    norm_num

/-- Claim C3 amended: each generator produces `⌊duration·Fs⌋` samples (numpy's
`linspace` truncates the float count), and for a grid of `n ≥ 2` points
sample `i` is the waveform evaluated at `t_i = duration·i/(n-1)` — the
inclusive-endpoint `linspace` grid, not `i/Fs`. -/
theorem generator_grid (gammae pe ue Ae mu theta r d Lm Vp duration Fs : ℝ)
    (xgun ngun xmic : Vec3) (v dN lN xN : ℝ) :
    (calculatemuzzleblast gammae pe ue Ae mu theta r d Lm Vp duration Fs).1.length =
      (⌊duration * Fs⌋).toNat ∧
    (∀ Pnw, calculateNWave xgun ngun xmic v dN lN xN duration Fs = some Pnw →
      Pnw.length = (⌊duration * Fs⌋).toNat) ∧
    (∀ i : ℕ, 2 ≤ numSamples duration Fs → i < numSamples duration Fs →
      ((calculatemuzzleblast gammae pe ue Ae mu theta r d Lm Vp duration Fs).1)[i]? =
        some (friedlander
          (duration * (i : ℝ) / ((numSamples duration Fs : ℝ) - 1))
          (timeOfArrival r
            (scalinglength gammae (convertPressureToPascals pe) ue Ae mu theta).2)
          (positivePhaseDuration r
            (scalinglength gammae (convertPressureToPascals pe) ue Ae mu theta).2
            (scalinglength gammae (convertPressureToPascals pe) ue Ae mu theta).1 Lm Vp)
          (peakOverpressure r
            (scalinglength gammae (convertPressureToPascals pe) ue Ae mu theta).2))) ∧
    (∀ i : ℕ, 2 ≤ numSamples duration Fs → i < numSamples duration Fs →
      ∀ ta0, nWaveTimeOfArrival v xgun ngun xmic = some ta0 →
      ∀ Pnw, calculateNWave xgun ngun xmic v dN lN xN duration Fs = some Pnw →
        Pnw[i]? = some (nWaveBranches ta0 (nWaveDuration v dN lN xN)
          (nWaveRiseTime (nWaveOverPressure v dN lN xN)) (nWaveOverPressure v dN lN xN)
          (duration * (i : ℝ) / ((numSamples duration Fs : ℝ) - 1)))) := by
  refine ⟨calculatemuzzleblast_length gammae pe ue Ae mu theta r d Lm Vp duration Fs, ?_, ?_, ?_⟩
  · intro Pnw h
    exact calculateNWave_length xgun ngun xmic v dN lN xN duration Fs Pnw h
  · intro i h2 hi
    have hEq : (calculatemuzzleblast gammae pe ue Ae mu theta r d Lm Vp duration Fs).1 =
        (linspace 0 duration (numSamples duration Fs)).map fun t => friedlander t
          (timeOfArrival r
            (scalinglength gammae (convertPressureToPascals pe) ue Ae mu theta).2)
          (positivePhaseDuration r
            (scalinglength gammae (convertPressureToPascals pe) ue Ae mu theta).2
            (scalinglength gammae (convertPressureToPascals pe) ue Ae mu theta).1 Lm Vp)
          (peakOverpressure r
            (scalinglength gammae (convertPressureToPascals pe) ue Ae mu theta).2) := rfl
    rw [hEq, List.getElem?_map, linspace_getElem? 0 duration _ i h2 hi]
    simp
  · intro i h2 hi ta0 hta Pnw h
    unfold calculateNWave at h
    rw [hta] at h
    simp only [Option.some.injEq] at h
    rw [← h, List.getElem?_map, linspace_getElem? 0 duration _ i h2 hi]
    simp

/-- Witness for C3 amended: at `duration = 1`, `Fs = 2` the grid has 2 points
and sample 1 of the muzzle blast is `friedlander` at `t = 1·1/(2-1)`; with
`v = 400` the N-wave generator is defined and (with `Fs' = 0`) empty. -/
theorem generator_grid_witness :
    ((calculatemuzzleblast 1.24 1 1 1 1 0 1 1 1 1 1 2).1)[1]? =
      some (friedlander
        (1 * ((1 : ℕ) : ℝ) / ((numSamples 1 2 : ℝ) - 1))
        (timeOfArrival 1 (scalinglength 1.24 (convertPressureToPascals 1) 1 1 1 0).2)
        (positivePhaseDuration 1
          (scalinglength 1.24 (convertPressureToPascals 1) 1 1 1 0).2
          (scalinglength 1.24 (convertPressureToPascals 1) 1 1 1 0).1 1 1)
        (peakOverpressure 1 (scalinglength 1.24 (convertPressureToPascals 1) 1 1 1 0).2)) :=
  (generator_grid 1.24 1 1 1 1 0 1 1 1 1 1 2 0 0 0 1 1 1 1).2.2.1 1
    (by unfold numSamples; norm_num) (by unfold numSamples; norm_num)

/-- Adding the all-zero array of matching length is the identity. -/
theorem zipWith_add_replicate_zero (L : List ℝ) :
    List.zipWith (· + ·) L (List.replicate L.length 0) = L := by
  induction L with
  | nil => rfl
  | cons a t ih => simp [List.replicate_succ, ih]

/-- Claim C1: whenever the composer returns, the total signal is the element-wise
sum of the muzzle-blast signal and the N-wave signal, and the three
returned arrays all have the same length. -/
theorem getAnechoicGunshot_total (xmic xgun ngun : Vec3)
    (bulletDiam bulletLen barrelLength pexit uexit duration Fs : ℝ)
    (sig Pmb Pnw : List ℝ)
    (h : getAnechoicGunshot xmic xgun ngun bulletDiam bulletLen barrelLength
      pexit uexit duration Fs = some (sig, Pmb, Pnw)) :
    sig = List.zipWith (· + ·) Pmb Pnw ∧
    sig.length = Pmb.length ∧ Pmb.length = Pnw.length := by
  unfold getAnechoicGunshot at h
  rcases hg : computeGeometry xmic xgun with ⟨r, th⟩
  rw [hg] at h
  cases th with
  | none => exact absurd h (by simp)
  | some theta =>
    cases hca : coneAngle uexit with
    | none =>
        rw [hca] at h
        simp only [Option.some.injEq, Prod.mk.injEq] at h
        obtain ⟨h1, h2, h3⟩ := h
        subst h1
        subst h2
        subst h3
        exact ⟨(zipWith_add_replicate_zero _).symm, rfl, by simp⟩
    | some thM =>
        rw [hca] at h
        simp only at h
        by_cases hgate : 341.0 < uexit ∧ theta < Real.pi - thM
        · rw [if_pos hgate] at h
          cases hnw : calculateNWave xgun ngun xmic uexit bulletDiam bulletLen
              (r * Real.sin theta) duration Fs with
          | none => rw [hnw] at h; exact absurd h (by simp)
          | some Pnw0 =>
              rw [hnw] at h
              simp only [Option.some.injEq, Prod.mk.injEq] at h
              obtain ⟨h1, h2, h3⟩ := h
              subst h1
              subst h2
              subst h3
              refine ⟨rfl, ?_, ?_⟩
              · rw [List.length_zipWith, calculatemuzzleblast_length,
                  calculateNWave_length xgun ngun xmic uexit bulletDiam bulletLen
                    (r * Real.sin theta) duration Fs _ hnw]
                exact min_self _
              · rw [calculatemuzzleblast_length,
                  calculateNWave_length xgun ngun xmic uexit bulletDiam bulletLen
                    (r * Real.sin theta) duration Fs _ hnw]
        · rw [if_neg hgate] at h
          simp only [Option.some.injEq, Prod.mk.injEq] at h
          obtain ⟨h1, h2, h3⟩ := h
          subst h1
          subst h2
          subst h3
          exact ⟨(zipWith_add_replicate_zero _).symm, rfl, by simp⟩

/-- Claim C2: the composer adds an N-wave contribution exactly when
`uexit > 341.0` and `θ < π - arcsin(1/uexit)` — the cone angle computed
from the raw exit velocity; otherwise the N-wave output is all zeros and
the total equals the muzzle blast exactly. -/
theorem getAnechoicGunshot_sonic_boom_gate (xmic xgun ngun : Vec3)
    (bulletDiam bulletLen barrelLength pexit uexit duration Fs : ℝ)
    (r theta : ℝ) (hg : computeGeometry xmic xgun = (r, some theta))
    (sig Pmb Pnw : List ℝ)
    (h : getAnechoicGunshot xmic xgun ngun bulletDiam bulletLen barrelLength
      pexit uexit duration Fs = some (sig, Pmb, Pnw)) :
    ((341.0 < uexit ∧ theta < Real.pi - Real.arcsin (1.0 / uexit)) →
      calculateNWave xgun ngun xmic uexit bulletDiam bulletLen
        (r * Real.sin theta) duration Fs = some Pnw ∧
      sig = List.zipWith (· + ·) Pmb Pnw) ∧
    (¬(341.0 < uexit ∧ theta < Real.pi - Real.arcsin (1.0 / uexit)) →
      Pnw = List.replicate Pmb.length 0 ∧ sig = Pmb ∧ ∀ y ∈ Pnw, y = 0) := by
  unfold getAnechoicGunshot at h
  rw [hg] at h
  cases hca : coneAngle uexit with
  | none =>
      rw [hca] at h
      simp only [Option.some.injEq, Prod.mk.injEq] at h
      obtain ⟨h1, h2, h3⟩ := h
      subst h1
      subst h2
      subst h3
      constructor
      · intro hcl
        exfalso
        have := coneAngle_of_one_le uexit (by linarith [hcl.1])
        rw [hca] at this
        exact absurd this (by simp)
      · intro _
        exact ⟨rfl, rfl, fun y hy => List.eq_of_mem_replicate hy⟩
  | some thM =>
      rw [hca] at h
      simp only at h
      by_cases hgate : 341.0 < uexit ∧ theta < Real.pi - thM
      · have hthM : thM = Real.arcsin (1.0 / uexit) := by
          have := coneAngle_of_one_le uexit (by linarith [hgate.1])
          rw [hca] at this
          exact Option.some.inj this
        rw [if_pos hgate] at h
        cases hnw : calculateNWave xgun ngun xmic uexit bulletDiam bulletLen
            (r * Real.sin theta) duration Fs with
        | none => rw [hnw] at h; exact absurd h (by simp)
        | some Pnw0 =>
            rw [hnw] at h
            simp only [Option.some.injEq, Prod.mk.injEq] at h
            obtain ⟨h1, h2, h3⟩ := h
            subst h1
            subst h2
            subst h3
            constructor
            · intro _
              exact ⟨rfl, rfl⟩
            · intro hcl
              exfalso
              exact hcl ⟨hgate.1, by rw [← hthM]; exact hgate.2⟩
      · rw [if_neg hgate] at h
        simp only [Option.some.injEq, Prod.mk.injEq] at h
        obtain ⟨h1, h2, h3⟩ := h
        subst h1
        subst h2
        subst h3
        constructor
        · intro hcl
          exfalso
          have hthM : thM = Real.arcsin (1.0 / uexit) := by
            have := coneAngle_of_one_le uexit (by linarith [hcl.1])
            rw [hca] at this
            exact Option.some.inj this
          exact hgate ⟨hcl.1, by rw [hthM]; exact hcl.2⟩
        · intro _
          exact ⟨rfl, rfl, fun y hy => List.eq_of_mem_replicate hy⟩


/-- Concrete geometry for the witnesses: microphone one meter along the
reference axis from the gun. -/
theorem computeGeometry_unit_y : computeGeometry ⟨0, 1, 0⟩ 0 = (1, some 0) := by
  unfold computeGeometry
  have hsub : (⟨0, 1, 0⟩ : Vec3) - 0 = ⟨0, 1, 0⟩ := by
    refine Vec3.ext_comps _ _ ?_ ?_ ?_ <;> simp
  have hdot : Vec3.dot ⟨0, 1, 0⟩ ⟨0, 1, 0⟩ = 1 := by unfold Vec3.dot; norm_num
  have hnorm : Vec3.norm (⟨0, 1, 0⟩ : Vec3) = 1 := by
    unfold Vec3.norm; rw [hdot, Real.sqrt_one]
  rw [hsub]
  norm_num [hdot, hnorm, Real.arccos_one]

/-- The composer on the witness scene with `uexit = 0` (the `coneAngle`
call yields no value, so the N-wave branch is skipped) and `Fs = 0`. -/
theorem getAnechoicGunshot_ex_zero :
    getAnechoicGunshot ⟨0, 1, 0⟩ 0 ⟨0, 0, 1⟩ 1 1 1 1 0 1 0 = some ([], [], []) := by
  unfold getAnechoicGunshot
  rw [computeGeometry_unit_y]
  have hca : coneAngle 0 = none := by unfold coneAngle; simp
  norm_num [hca, calculatemuzzleblast, muzzleblast, numSamples, linspace]

/-- Witness for C1: the sum/length invariant holds on the concrete scene with
`uexit = 0`, `Fs = 0`. -/
theorem getAnechoicGunshot_total_witness :
    ([] : List ℝ) = List.zipWith (· + ·) ([] : List ℝ) ([] : List ℝ) ∧
    ([] : List ℝ).length = ([] : List ℝ).length ∧
    ([] : List ℝ).length = ([] : List ℝ).length :=
  getAnechoicGunshot_total ⟨0, 1, 0⟩ 0 ⟨0, 0, 1⟩ 1 1 1 1 0 1 0 [] [] []
    getAnechoicGunshot_ex_zero

/-- The composer on the witness scene with subsonic `uexit = 200` and
`Fs = 0`: the sonic-boom gate fails and the N-wave output is zero. -/
theorem getAnechoicGunshot_ex_subsonic :
    getAnechoicGunshot ⟨0, 1, 0⟩ 0 ⟨0, 0, 1⟩ 1 1 1 1 200 1 0 = some ([], [], []) := by
  unfold getAnechoicGunshot
  rw [computeGeometry_unit_y]
  have hca : coneAngle 200 = some (Real.arcsin (1.0 / 200)) :=
    coneAngle_of_one_le 200 (by norm_num)
  norm_num [hca, calculatemuzzleblast, muzzleblast, numSamples, linspace]

/-- Witness for C2: on the subsonic concrete scene (`uexit = 200`), the N-wave
signal is all zeros and the total equals the muzzle blast exactly. -/
theorem getAnechoicGunshot_sonic_boom_gate_witness :
    ([] : List ℝ) = List.replicate ([] : List ℝ).length (0 : ℝ) ∧
    ([] : List ℝ) = ([] : List ℝ) ∧ ∀ y ∈ ([] : List ℝ), y = (0 : ℝ) :=
  (getAnechoicGunshot_sonic_boom_gate ⟨0, 1, 0⟩ 0 ⟨0, 0, 1⟩ 1 1 1 1 200 1 0 1 0
    computeGeometry_unit_y [] [] [] getAnechoicGunshot_ex_subsonic).2
    (fun hc => absurd hc.1 (by norm_num))

end
